import Mathlib

/-!
Verification of the exponential-series solver (`essolve` / `ode2es`) of the
qutip repository (file `qutip/essolve.py`).

The two entry points `essolve` and `ode2es` are translated directly from the
source.  The collaborating components that live outside the repository
(the `Qobj` operator/state algebra, the `eseries` container with `estidy` and
`esval`, the eigensolver `Qobj.eigenstates`, the linear solver `la.solve`,
the `liouvillian` constructor, `expect`, and the `Odedata` result record) are
modelled from the specification; each such definition carries a doc comment
saying so.  Scalars are exact complex numbers.
-/

noncomputable section

open scoped Matrix

/-- Modelled from the spec: the algebraic category tag of a `Qobj`
(the spec describes classification "by runtime inspection of the matrix's
declared algebraic category"). -/
inductive QType where
  | ket : QType
  | bra : QType
  | oper : QType
  | super : QType
  | other : QType
deriving DecidableEq

/-- Modelled from the spec: the external operator/state algebra collaborator.
A `Qobj` packages a dense complex matrix with its shape, its dimension
metadata, its algebraic category and its Hermiticity flag. -/
structure Qobj where
  m : ℕ
  n : ℕ
  data : Matrix (Fin m) (Fin n) ℂ
  dims : List ℕ × List ℕ
  qtype : QType
  isherm : Bool

/-- Modelled from the spec: `isket` recognizes a ket, i.e. a column vector. -/
def isket (q : Qobj) : Bool := q.qtype == QType.ket && q.n == 1

/-- Modelled from the spec: `isoper` recognizes a standard (square) operator. -/
def isoper (q : Qobj) : Bool := q.qtype == QType.oper && q.m == q.n

/-- Modelled from the spec: `issuper` recognizes a (square) superoperator. -/
def issuper (q : Qobj) : Bool := q.qtype == QType.super && q.m == q.n

/-- Positivity of the first factor, extracted from an index below a product. -/
def mPos {m n : ℕ} (k : Fin (m * n)) : 0 < m :=
  Nat.pos_of_ne_zero (fun h => Nat.not_lt_zero k.val (by simpa [h] using k.isLt))

/-- Row index of the matrix entry stored at position `k` of the
column-stacked vectorization. -/
def rowOf {m n : ℕ} (k : Fin (m * n)) : Fin m :=
  ⟨k.val % m, Nat.mod_lt _ (mPos k)⟩

/-- Column index of the matrix entry stored at position `k` of the
column-stacked vectorization. -/
def colOf {m n : ℕ} (k : Fin (m * n)) : Fin n :=
  ⟨k.val / m, Nat.div_lt_of_lt_mul k.isLt⟩

/-- Position at which entry `(i, j)` is stored by the column-stacked
vectorization. -/
def vIdx {m n : ℕ} (i : Fin m) (j : Fin n) : Fin (m * n) :=
  ⟨j.val * m + i.val, by
    have h1 : j.val + 1 ≤ n := j.isLt
    calc j.val * m + i.val < j.val * m + m := Nat.add_lt_add_left i.isLt _
    _ = (j.val + 1) * m := by ring
    _ ≤ n * m := Nat.mul_le_mul h1 (le_refl m)
    _ = m * n := Nat.mul_comm n m⟩

/-- Modelled from the spec: `mat2vec`, the column-stacking vectorization of a
matrix (the superoperator-algebra collaborator). -/
def mat2vec {m n : ℕ} (M : Matrix (Fin m) (Fin n) ℂ) : Fin (m * n) → ℂ :=
  fun k => M (rowOf k) (colOf k)

/-- Modelled from the spec: `vec2mat`, the inverse of the column-stacking
vectorization. -/
def vec2mat {m n : ℕ} (x : Fin (m * n) → ℂ) : Matrix (Fin m) (Fin n) ℂ :=
  fun i j => x (vIdx i j)

/-- Transport of a matrix along equalities of its dimensions. -/
def castM {a b c d : ℕ} (h1 : a = c) (h2 : b = d) (M : Matrix (Fin a) (Fin b) ℂ) :
    Matrix (Fin c) (Fin d) ℂ :=
  Matrix.submatrix M (Fin.cast h1.symm) (Fin.cast h2.symm)

/-- Modelled from the spec: the linear solver `la.solve` of the
InitialStateProjector, solving `A * x = b`; on an invertible `A` it returns
the exact solution (computed here through the adjugate formula for the
inverse). -/
def laSolve {N : ℕ} (A : Matrix (Fin N) (Fin N) ℂ) (b : Fin N → ℂ) : Fin N → ℂ :=
  Matrix.mulVec ((A.det)⁻¹ • A.adjugate) b

/-- Modelled from the spec: the external EigenDecomposer collaborator
(`Qobj.eigenstates`): for an `N × N` matrix it produces `N` eigenvalues
together with the matrix whose columns are the corresponding eigenvectors. -/
def EigSolver : Type :=
  (N : ℕ) → Matrix (Fin N) (Fin N) ℂ → (Fin N → ℂ) × Matrix (Fin N) (Fin N) ℂ

/-- Modelled from the spec: the exponential-series container, an ordered
collection of `(coefficient, rate)` terms representing
`fun t => ∑ i, coefficient_i * exp (rate_i * t)`. -/
structure ESeries where
  terms : List (Qobj × ℂ)

/-- Modelled from the spec: addition supplied by the operator-algebra
collaborator; matrices of identical shape are added entrywise (mismatched
shapes never arise in this core). -/
def Qobj.add (a b : Qobj) : Qobj :=
  if h : b.m = a.m ∧ b.n = a.n then
    { m := a.m, n := a.n, data := a.data + castM h.1 h.2 b.data,
      dims := a.dims, qtype := a.qtype, isherm := a.isherm }
  else a

/-- Data of a `Qobj` read at an expected shape; zero when the shape differs. -/
def dataAt (m n : ℕ) (q : Qobj) : Matrix (Fin m) (Fin n) ℂ :=
  if h : q.m = m ∧ q.n = n then castM h.1 h.2 q.data else 0

/-- Modelled from the spec: one merging step of the tidy operation — a term is
either combined with an existing term of equal rate or appended. -/
def insertES (p : Qobj × ℂ) : List (Qobj × ℂ) → List (Qobj × ℂ)
  | [] => [p]
  | q :: rest => if q.2 = p.2 then (Qobj.add q.1 p.1, q.2) :: rest else q :: insertES p rest

/-- Modelled from the spec: `estidy`, the external tidy/simplify operation of
the eseries collaborator, merging terms whose rates coincide. -/
def estidy (s : ESeries) : ESeries :=
  ⟨s.terms.foldl (fun acc p => insertES p acc) []⟩

/-- Value of a term list at time `t`, read at shape `(m, n)`: the sum
`∑ i, coefficient_i * exp (rate_i * t)` underlying series evaluation. -/
def valSum (m n : ℕ) (l : List (Qobj × ℂ)) (t : ℝ) : Matrix (Fin m) (Fin n) ℂ :=
  (l.map (fun q => Complex.exp (q.2 * (t : ℂ)) • dataAt m n q.1)).sum

/-- Shape uniformity of a term list: every coefficient has shape `(m, n)`. -/
def uniformShape (m n : ℕ) (l : List (Qobj × ℂ)) : Prop :=
  ∀ q ∈ l, q.1.m = m ∧ q.1.n = n

/-- Modelled from the spec: evaluation of an exponential series at one time
(the `esval` collaborator): the state at time `t` is
`∑ i, coefficient_i * exp (rate_i * t)`. -/
def esvalAt (s : ESeries) (t : ℝ) : Qobj :=
  match s.terms with
  | [] => { m := 0, n := 0, data := 0, dims := ([], []), qtype := QType.other, isherm := false }
  | p :: _ =>
    { m := p.1.m, n := p.1.n, data := valSum p.1.m p.1.n s.terms t,
      dims := p.1.dims, qtype := p.1.qtype, isherm := p.1.isherm }

/-- Modelled from the spec: the expectation-value collaborator `expect`:
`⟨state| A |state⟩` on a ket state, `Tr (A * state)` on a density-matrix
state. -/
def expect (e s : Qobj) : ℂ :=
  if h : s.qtype = QType.ket ∧ s.n = 1 ∧ e.m = s.m ∧ e.n = s.m then
    Matrix.dotProduct (star (fun i => s.data i (Fin.cast h.2.1.symm ⟨0, Nat.one_pos⟩)))
      (Matrix.mulVec (castM h.2.2.1 h.2.2.2 e.data)
        (fun i => s.data i (Fin.cast h.2.1.symm ⟨0, Nat.one_pos⟩)))
  else if h : s.qtype = QType.oper ∧ s.n = s.m ∧ e.m = s.m ∧ e.n = s.m then
    Matrix.trace (castM h.2.2.1 h.2.2.2 e.data * castM rfl h.2.1 s.data)
  else 0

/-- Error taxonomy of the spec: `InvalidGeneratorError`,
`StateTypeMismatchError` and `LinearAlgebraFailure` (the source raises
`TypeError` with distinct messages for the first two; dimension mismatches
surface from the numerical linear-algebra collaborators). -/
inductive QuErr where
  | stateTypeMismatch : QuErr
  | invalidGenerator : QuErr
  | linAlgFailure : QuErr
deriving DecidableEq

/-- Promotion of a ket initial state to a density matrix,
`rho0 = rho0 * rho0.dag()` (source line 126); the outer product with the
conjugate transpose, an operator-type `Qobj` (Hermitian by construction). -/
def promote (q : Qobj) : Qobj :=
  { m := q.m, n := q.m, data := q.data * q.data.conjTranspose,
    dims := (q.dims.1, q.dims.1), qtype := QType.oper, isherm := true }

/-- The state actually evolved by the superoperator branch of `ode2es`
(source lines 124-126): a ket is promoted, anything else is kept. -/
def promoteIfKet (q : Qobj) : Qobj :=
  if isket q then promote q else q

/-- Term list built by the superoperator branch of `ode2es`
(source lines 128-144): solve `v * v0 = r0` for the vectorized state,
scale the eigenvector columns, and emit one `(coefficient, rate)` pair per
eigenvalue index with rate `w i`. -/
def superTerms (N : ℕ) (r : Qobj) (hN : r.m * r.n = N) (w : Fin N → ℂ)
    (v : Matrix (Fin N) (Fin N) ℂ) : List (Qobj × ℂ) :=
  let r0 : Fin N → ℂ := fun k => mat2vec r.data (Fin.cast hN.symm k)
  let v0 := laSolve v r0
  let vv := v * Matrix.diagonal v0
  (List.finRange (r.m * r.n)).map (fun i =>
    ({ m := r.m, n := r.n,
       data := vec2mat (fun k => vv (Fin.cast hN k) (Fin.cast hN i)),
       dims := r.dims, qtype := r.qtype, isherm := r.isherm }, w (Fin.cast hN i)))

/-- Term list built by the Hamiltonian branch of `ode2es`
(source lines 152-168): identical to the superoperator branch except that the
rate of term `i` is `-1i * w i`; the source reshapes column `i` with
`np.matrix(vv[:, i]).T`, which for the `m × 1` ket shape is exactly the
column-stacking reshape `vec2mat`. -/
def operTerms (N : ℕ) (r : Qobj) (hN : r.m * r.n = N) (w : Fin N → ℂ)
    (v : Matrix (Fin N) (Fin N) ℂ) : List (Qobj × ℂ) :=
  let r0 : Fin N → ℂ := fun k => mat2vec r.data (Fin.cast hN.symm k)
  let v0 := laSolve v r0
  let vv := v * Matrix.diagonal v0
  (List.finRange (r.m * r.n)).map (fun i =>
    ({ m := r.m, n := r.n,
       data := vec2mat (fun k => vv (Fin.cast hN k) (Fin.cast hN i)),
       dims := r.dims, qtype := r.qtype, isherm := r.isherm }, -Complex.I * w (Fin.cast hN i)))

/-- Translation of `ode2es` (source lines 101-173).  The eigensolver is the
external collaborator `eig`.  The two branches build their term lists, sum
them into one series and hand it to `estidy`; a generator that is neither
operator nor superoperator, or an operator generator with a non-ket state,
is rejected. -/
def ode2es (eig : EigSolver) (L rho0 : Qobj) : Except QuErr ESeries :=
  if issuper L then
    let r := promoteIfKet rho0
    if hdim : L.n = L.m ∧ r.m * r.n = L.m then
      let wv := eig L.m (castM rfl hdim.1 L.data)
      Except.ok (estidy ⟨superTerms L.m r hdim.2 wv.1 wv.2⟩)
    else Except.error QuErr.linAlgFailure
  else if isoper L then
    if isket rho0 then
      if hdim : L.n = L.m ∧ rho0.m * rho0.n = L.m then
        let wv := eig L.m (castM rfl hdim.1 L.data)
        Except.ok (estidy ⟨operTerms L.m rho0 hdim.2 wv.1 wv.2⟩)
      else Except.error QuErr.linAlgFailure
    else Except.error QuErr.stateTypeMismatch
  else Except.error QuErr.invalidGenerator

/-- Modelled from the spec: the result-container collaborator `Odedata`,
holding the solver identifier, the time grid and one expectation-value
sequence per observable. -/
structure Odedata where
  solver : String
  times : List ℝ
  expect : List (List ℂ)

/-- Generator selection of `essolve` (source lines 73-76): the Hamiltonian is
used directly when no collapse operators are given and the state is a ket;
otherwise the external `liouvillian` collaborator `lv` builds the
generator. -/
def essolveGenerator (lv : Qobj → Option (List Qobj) → Qobj) (H rho0 : Qobj)
    (c_op_list : Option (List Qobj)) : Qobj :=
  if (c_op_list.isNone || (c_op_list.getD []).isEmpty) && isket rho0 then H
  else lv H c_op_list

/-- Translation of `essolve` (source lines 32-95): build the generator, call
`ode2es`, evaluate every observable on the evaluated states over the time
grid, and package an `Odedata` record, taking the real part of every
sequence whose observable carries the Hermiticity flag. -/
def essolve (eig : EigSolver) (lv : Qobj → Option (List Qobj) → Qobj)
    (H rho0 : Qobj) (tlist : List ℝ) (c_op_list : Option (List Qobj))
    (e_ops : List Qobj) : Except QuErr Odedata :=
  match ode2es eig (essolveGenerator lv H rho0 c_op_list) rho0 with
  | Except.error e => Except.error e
  | Except.ok es =>
    Except.ok
      { solver := "essolve", times := tlist,
        expect := e_ops.map (fun e =>
          let row := tlist.map (fun t => expect e (esvalAt es t))
          if e.isherm then row.map (fun z => ((z.re : ℝ) : ℂ)) else row) }

/-- Matrix of the superoperator `X ↦ A * X` in the column-stacked
vectorization. -/
def spreM {d : ℕ} (A : Matrix (Fin d) (Fin d) ℂ) :
    Matrix (Fin (d * d)) (Fin (d * d)) ℂ :=
  fun k l => A (rowOf k) (rowOf l) * (if colOf l = colOf k then (1 : ℂ) else 0)

/-- Matrix of the superoperator `X ↦ X * B` in the column-stacked
vectorization. -/
def spostM {d : ℕ} (B : Matrix (Fin d) (Fin d) ℂ) :
    Matrix (Fin (d * d)) (Fin (d * d)) ℂ :=
  fun k l => (if rowOf l = rowOf k then (1 : ℂ) else 0) * B (colOf l) (colOf k)

/-- Modelled from the spec: the superoperator-construction collaborator for a
closed system — the Liouvillian of a Hamiltonian `H` with no collapse
operators is the vectorization of `rho ↦ -1i * (H * rho - rho * H)`. -/
def liouvMat {d : ℕ} (H : Matrix (Fin d) (Fin d) ℂ) :
    Matrix (Fin (d * d)) (Fin (d * d)) ℂ :=
  (-Complex.I) • (spreM H - spostM H)

/-- Concrete one-dimensional eigensolver fixture: every matrix is reported to
have eigenvalue `0` with the identity eigenvector matrix. -/
def eigW : EigSolver := fun N _ => (fun _ => 0, (1 : Matrix (Fin N) (Fin N) ℂ))

/-- Concrete one-dimensional ket fixture. -/
def ketW : Qobj := ⟨1, 1, !![1], ([1], [1]), QType.ket, false⟩

/-- Concrete one-dimensional Hermitian observable fixture. -/
def operW : Qobj := ⟨1, 1, !![1], ([1], [1]), QType.oper, true⟩

/-- Concrete one-dimensional Hamiltonian fixture. -/
def hamW : Qobj := ⟨1, 1, 0, ([1], [1]), QType.oper, true⟩

/-- Series produced by `ode2es` on the fixtures `hamW`, `ketW`. -/
def esW : ESeries :=
  estidy ⟨operTerms 1 ketW rfl (fun _ => 0) 1⟩

/-- Result record produced by `essolve` on the fixtures. -/
def dataW : Odedata :=
  { solver := "essolve", times := [0],
    expect := [[(((expect operW (esvalAt esW 0)).re : ℝ) : ℂ)]] }

/-- Two-level diagonal Hamiltonian fixture `diag(1, -1)` of the spec's
concrete scenario. -/
def hamZ : Qobj := ⟨2, 2, !![1, 0; 0, -1], ([2], [2]), QType.oper, true⟩

/-- Two-level initial ket fixture `(1, 0)`. -/
def ketZ : Qobj := ⟨2, 1, !![1; 0], ([2], [1]), QType.ket, false⟩

/-- Two-level Hermitian observable fixture `diag(1, -1)`. -/
def obsZ : Qobj := ⟨2, 2, !![1, 0; 0, -1], ([2], [2]), QType.oper, true⟩

/-- Expected series of the two-level scenario: rates `-1i * 1` and
`-1i * (-1)`, coefficients the eigenprojectors applied to the initial ket. -/
def seriesZ : ESeries :=
  ⟨[(⟨2, 1, !![1; 0], ([2], [1]), QType.ket, false⟩, -Complex.I * 1),
    (⟨2, 1, !![0; 0], ([2], [1]), QType.ket, false⟩, -Complex.I * (-1))]⟩

/-- The column-stacking correspondence between entry positions and vector
positions, as an equivalence. -/
def vecEquiv (m n : ℕ) : Fin m × Fin n ≃ Fin (m * n) where
  toFun p := vIdx p.1 p.2
  invFun k := (rowOf k, colOf k)
  left_inv p := by
    apply Prod.ext
    · apply Fin.ext
      show (p.2.val * m + p.1.val) % m = p.1.val
      rw [Nat.add_comm, Nat.add_mul_mod_self_right, Nat.mod_eq_of_lt p.1.isLt]
    · apply Fin.ext
      show (p.2.val * m + p.1.val) / m = p.2.val
      have hm : 0 < m := Nat.lt_of_le_of_lt (Nat.zero_le _) p.1.isLt
      rw [Nat.add_comm, Nat.mul_comm, Nat.add_mul_div_left _ _ hm,
        Nat.div_eq_of_lt p.1.isLt, Nat.zero_add]
  right_inv k := by
    apply Fin.ext
    show (k.val / m) * m + k.val % m = k.val
    rw [Nat.mul_comm]
    exact Nat.div_add_mod k.val m

/-- Index permutation exchanging the row and column positions of the
vectorization. -/
def swapIdx (d : ℕ) : Fin (d * d) ≃ Fin (d * d) :=
  (vecEquiv d d).symm.trans ((Equiv.prodComm (Fin d) (Fin d)).trans (vecEquiv d d))

/-! Basic lemmas about the index bookkeeping. -/

theorem finCast_eq {a : ℕ} (h : a = a) (x : Fin a) : Fin.cast h x = x := rfl

theorem castM_self {a b : ℕ} (h1 : a = a) (h2 : b = b) (M : Matrix (Fin a) (Fin b) ℂ) :
    castM h1 h2 M = M := rfl

theorem rowOf_vIdx {m n : ℕ} (i : Fin m) (j : Fin n) : rowOf (vIdx i j) = i :=
  congrArg Prod.fst ((vecEquiv m n).left_inv (i, j))

theorem colOf_vIdx {m n : ℕ} (i : Fin m) (j : Fin n) : colOf (vIdx i j) = j :=
  congrArg Prod.snd ((vecEquiv m n).left_inv (i, j))

theorem vIdx_rowOf_colOf {m n : ℕ} (k : Fin (m * n)) : vIdx (rowOf k) (colOf k) = k :=
  (vecEquiv m n).right_inv k

theorem vec2mat_mat2vec {m n : ℕ} (M : Matrix (Fin m) (Fin n) ℂ) :
    vec2mat (mat2vec M) = M := by
  funext i j
  simp [vec2mat, mat2vec, rowOf_vIdx, colOf_vIdx]

theorem mat2vec_vec2mat {m n : ℕ} (x : Fin (m * n) → ℂ) :
    mat2vec (vec2mat x) = x := by
  funext k
  simp [vec2mat, mat2vec, vIdx_rowOf_colOf]

theorem fin_eq_of_row_col {m n : ℕ} {k l : Fin (m * n)} (hr : rowOf k = rowOf l)
    (hc : colOf k = colOf l) : k = l := by
  have h1 := vIdx_rowOf_colOf k
  have h2 := vIdx_rowOf_colOf l
  rw [← h1, ← h2, hr, hc]

/-! Lemmas about the modelled linear solver. -/

theorem laSolve_eq_inv_mulVec {N : ℕ} (A : Matrix (Fin N) (Fin N) ℂ) (b : Fin N → ℂ) :
    laSolve A b = Matrix.mulVec A⁻¹ b := by
  rw [laSolve, Matrix.inv_def, Ring.inverse_eq_inv]

theorem mulVec_laSolve {N : ℕ} {A : Matrix (Fin N) (Fin N) ℂ} (hA : A.det ≠ 0)
    (b : Fin N → ℂ) : Matrix.mulVec A (laSolve A b) = b := by
  rw [laSolve_eq_inv_mulVec, Matrix.mulVec_mulVec,
    Matrix.mul_nonsing_inv A (isUnit_iff_ne_zero.mpr hA), Matrix.one_mulVec]

/-! Structural lemmas about the term lists built by the two branches. -/

theorem operTerms_eq_superTerms (N : ℕ) (r : Qobj) (hN : r.m * r.n = N)
    (w : Fin N → ℂ) (v : Matrix (Fin N) (Fin N) ℂ) :
    operTerms N r hN w v = superTerms N r hN (fun k => -Complex.I * w k) v := rfl

theorem length_superTerms (N : ℕ) (r : Qobj) (hN : r.m * r.n = N) (w : Fin N → ℂ)
    (v : Matrix (Fin N) (Fin N) ℂ) : (superTerms N r hN w v).length = r.m * r.n := by
  simp [superTerms]

theorem mem_superTerms_meta {N : ℕ} {r : Qobj} {hN : r.m * r.n = N} {w : Fin N → ℂ}
    {v : Matrix (Fin N) (Fin N) ℂ} {p : Qobj × ℂ} (hp : p ∈ superTerms N r hN w v) :
    p.1.m = r.m ∧ p.1.n = r.n ∧ p.1.dims = r.dims ∧ p.1.qtype = r.qtype ∧
      p.1.isherm = r.isherm := by
  simp only [superTerms, List.mem_map] at hp
  obtain ⟨i, -, rfl⟩ := hp
  exact ⟨rfl, rfl, rfl, rfl, rfl⟩

theorem superTerms_rates (N : ℕ) (r : Qobj) (hN : r.m * r.n = N) (w : Fin N → ℂ)
    (v : Matrix (Fin N) (Fin N) ℂ) :
    (superTerms N r hN w v).map Prod.snd
      = (List.finRange (r.m * r.n)).map (fun i => w (Fin.cast hN i)) := by
  simp [superTerms, List.map_map]

theorem dataAt_mk {m n : ℕ} (D : Matrix (Fin m) (Fin n) ℂ) (dims : List ℕ × List ℕ)
    (qt : QType) (ih : Bool) :
    dataAt m n { m := m, n := n, data := D, dims := dims, qtype := qt, isherm := ih } = D := by
  simp [dataAt, castM_self]

theorem castM_valSum {m n m2 n2 : ℕ} (h1 : m = m2) (h2 : n = n2)
    (l : List (Qobj × ℂ)) (t : ℝ) :
    castM h1 h2 (valSum m n l t) = valSum m2 n2 l t := by
  subst h1
  subst h2
  rw [castM_self]

theorem Qobj.eq_of_fields {a b : Qobj} (hm : a.m = b.m) (hn : a.n = b.n)
    (hd : castM hm hn a.data = b.data) (hdims : a.dims = b.dims)
    (hq : a.qtype = b.qtype) (hh : a.isherm = b.isherm) : a = b := by
  obtain ⟨am, an, ad, adims, aq, ah⟩ := a
  obtain ⟨bm, bn, bd, bdims, bq, bh⟩ := b
  dsimp only at hm hn hd hdims hq hh
  subst hm
  subst hn
  rw [castM_self] at hd
  subst hd
  subst hdims
  subst hq
  subst hh
  rfl

theorem dataAt_add {m n : ℕ} {a b : Qobj} (ha : a.m = m ∧ a.n = n)
    (hb : b.m = m ∧ b.n = n) :
    dataAt m n (Qobj.add a b) = dataAt m n a + dataAt m n b := by
  obtain ⟨am, an, ad, adims, aq, ah⟩ := a
  obtain ⟨bm, bn, bd, bdims, bq, bh⟩ := b
  obtain ⟨ha1, ha2⟩ := ha
  obtain ⟨hb1, hb2⟩ := hb
  dsimp only at ha1 ha2 hb1 hb2
  subst ha1
  subst ha2
  subst hb1
  subst hb2
  have h1 : Qobj.add ⟨bm, bn, ad, adims, aq, ah⟩ ⟨bm, bn, bd, bdims, bq, bh⟩
      = ⟨bm, bn, ad + bd, adims, aq, ah⟩ := by
    unfold Qobj.add
    rw [dif_pos (And.intro rfl rfl)]
    rfl
  rw [h1, dataAt_mk, dataAt_mk, dataAt_mk]

theorem Qobj.add_meta (a b : Qobj) :
    (Qobj.add a b).m = a.m ∧ (Qobj.add a b).n = a.n ∧ (Qobj.add a b).dims = a.dims ∧
      (Qobj.add a b).qtype = a.qtype ∧ (Qobj.add a b).isherm = a.isherm := by
  unfold Qobj.add
  split <;> exact ⟨rfl, rfl, rfl, rfl, rfl⟩

theorem valSum_nil (m n : ℕ) (t : ℝ) : valSum m n [] t = 0 := rfl

theorem valSum_cons (m n : ℕ) (p : Qobj × ℂ) (l : List (Qobj × ℂ)) (t : ℝ) :
    valSum m n (p :: l) t
      = Complex.exp (p.2 * (t : ℂ)) • dataAt m n p.1 + valSum m n l t := by
  simp [valSum]

theorem insertES_valSum {m n : ℕ} {p : Qobj × ℂ} {l : List (Qobj × ℂ)}
    (hp : p.1.m = m ∧ p.1.n = n) (hl : uniformShape m n l) (t : ℝ) :
    valSum m n (insertES p l) t
      = valSum m n l t + Complex.exp (p.2 * (t : ℂ)) • dataAt m n p.1 := by
  induction l with
  | nil => simp [insertES, valSum]
  | cons q rest ih =>
    have hq := hl q (List.mem_cons_self q rest)
    have hrest : uniformShape m n rest := fun x hx => hl x (List.mem_cons_of_mem _ hx)
    by_cases h : q.2 = p.2
    · rw [insertES, if_pos h, valSum_cons, valSum_cons, dataAt_add hq hp, ← h, smul_add]
      abel
    · rw [insertES, if_neg h, valSum_cons, valSum_cons, ih hrest]
      abel

theorem insertES_uniform {m n : ℕ} {p : Qobj × ℂ} {l : List (Qobj × ℂ)}
    (hp : p.1.m = m ∧ p.1.n = n) (hl : uniformShape m n l) :
    uniformShape m n (insertES p l) := by
  induction l with
  | nil =>
    intro x hx
    simp only [insertES, List.mem_singleton] at hx
    subst hx
    exact hp
  | cons q rest ih =>
    have hq := hl q (List.mem_cons_self q rest)
    have hrest : uniformShape m n rest := fun x hx => hl x (List.mem_cons_of_mem _ hx)
    intro x hx
    by_cases h : q.2 = p.2
    · rw [insertES, if_pos h] at hx
      rcases List.mem_cons.mp hx with h1 | h2
      · subst h1
        exact ⟨(Qobj.add_meta q.1 p.1).1.trans hq.1, (Qobj.add_meta q.1 p.1).2.1.trans hq.2⟩
      · exact hrest x h2
    · rw [insertES, if_neg h] at hx
      rcases List.mem_cons.mp hx with h1 | h2
      · subst h1
        exact hq
      · exact ih hrest x h2

theorem insertES_cons_head (p q : Qobj × ℂ) (rest : List (Qobj × ℂ)) :
    ∃ q1 rest1, insertES p (q :: rest) = (q1, q.2) :: rest1 ∧ q1.m = q.1.m ∧
      q1.n = q.1.n ∧ q1.dims = q.1.dims ∧ q1.qtype = q.1.qtype ∧
      q1.isherm = q.1.isherm := by
  by_cases h : q.2 = p.2
  · refine ⟨Qobj.add q.1 p.1, rest, by rw [insertES, if_pos h], ?_, ?_, ?_, ?_, ?_⟩
    · exact (Qobj.add_meta q.1 p.1).1
    · exact (Qobj.add_meta q.1 p.1).2.1
    · exact (Qobj.add_meta q.1 p.1).2.2.1
    · exact (Qobj.add_meta q.1 p.1).2.2.2.1
    · exact (Qobj.add_meta q.1 p.1).2.2.2.2
  · exact ⟨q.1, insertES p rest, by rw [insertES, if_neg h], rfl, rfl, rfl, rfl, rfl⟩

theorem foldl_insertES_head (l : List (Qobj × ℂ)) :
    ∀ (q0 : Qobj) (r0 : ℂ) (rest : List (Qobj × ℂ)),
      ∃ q1 rest1,
        l.foldl (fun acc p => insertES p acc) ((q0, r0) :: rest) = (q1, r0) :: rest1 ∧
        q1.m = q0.m ∧ q1.n = q0.n ∧ q1.dims = q0.dims ∧ q1.qtype = q0.qtype ∧
        q1.isherm = q0.isherm := by
  induction l with
  | nil => exact fun q0 r0 rest => ⟨q0, rest, rfl, rfl, rfl, rfl, rfl, rfl⟩
  | cons p l ih =>
    intro q0 r0 rest
    obtain ⟨q1, rest1, heq, hm, hn, hd, hq, hh⟩ := insertES_cons_head p (q0, r0) rest
    rw [List.foldl_cons, heq]
    obtain ⟨q2, rest2, heq2, hm2, hn2, hd2, hq2, hh2⟩ := ih q1 r0 rest1
    exact ⟨q2, rest2, heq2, hm2.trans hm, hn2.trans hn, hd2.trans hd, hq2.trans hq,
      hh2.trans hh⟩

theorem foldl_insertES_uniform {m n : ℕ} (l : List (Qobj × ℂ)) :
    ∀ acc : List (Qobj × ℂ), uniformShape m n l → uniformShape m n acc →
      uniformShape m n (l.foldl (fun acc p => insertES p acc) acc) := by
  induction l with
  | nil => exact fun acc _ hacc => hacc
  | cons p l ih =>
    intro acc hl hacc
    rw [List.foldl_cons]
    exact ih _ (fun x hx => hl x (List.mem_cons_of_mem _ hx))
      (insertES_uniform (hl p (List.mem_cons_self p l)) hacc)

theorem foldl_insertES_valSum {m n : ℕ} (l : List (Qobj × ℂ)) :
    ∀ acc : List (Qobj × ℂ), uniformShape m n l → uniformShape m n acc → ∀ t : ℝ,
      valSum m n (l.foldl (fun acc p => insertES p acc) acc) t
        = valSum m n acc t + valSum m n l t := by
  induction l with
  | nil =>
    intro acc _ _ t
    simp [valSum]
  | cons p l ih =>
    intro acc hl hacc t
    have hp := hl p (List.mem_cons_self p l)
    have hrest : uniformShape m n l := fun x hx => hl x (List.mem_cons_of_mem _ hx)
    rw [List.foldl_cons, ih _ hrest (insertES_uniform hp hacc) t,
      insertES_valSum hp hacc t, valSum_cons]
    abel

theorem estidy_terms_valSum {m n : ℕ} (s : ESeries) (hu : uniformShape m n s.terms)
    (t : ℝ) : valSum m n (estidy s).terms t = valSum m n s.terms t := by
  show valSum m n (s.terms.foldl (fun acc p => insertES p acc) []) t = _
  rw [foldl_insertES_valSum s.terms [] hu (fun x hx => absurd hx (List.not_mem_nil x)) t,
    valSum_nil, zero_add]

theorem estidy_terms_head (q0 : Qobj) (r0 : ℂ) (rest : List (Qobj × ℂ)) :
    ∃ q1 rest1, (estidy ⟨(q0, r0) :: rest⟩).terms = (q1, r0) :: rest1 ∧
      q1.m = q0.m ∧ q1.n = q0.n ∧ q1.dims = q0.dims ∧ q1.qtype = q0.qtype ∧
      q1.isherm = q0.isherm := by
  show ∃ q1 rest1,
    ((q0, r0) :: rest).foldl (fun acc p => insertES p acc) [] = (q1, r0) :: rest1 ∧ _
  rw [List.foldl_cons]
  exact foldl_insertES_head rest q0 r0 []

theorem esvalAt_of_terms_cons {s : ESeries} {p : Qobj × ℂ} {rest : List (Qobj × ℂ)}
    (h : s.terms = p :: rest) (t : ℝ) :
    esvalAt s t =
      { m := p.1.m, n := p.1.n, data := valSum p.1.m p.1.n s.terms t,
        dims := p.1.dims, qtype := p.1.qtype, isherm := p.1.isherm } := by
  obtain ⟨ts⟩ := s
  dsimp only at h
  subst h
  rfl

theorem esvalAt_estidy {s : ESeries} {p : Qobj × ℂ} {rest : List (Qobj × ℂ)}
    (h : s.terms = p :: rest) (hu : uniformShape p.1.m p.1.n s.terms) (t : ℝ) :
    esvalAt (estidy s) t = esvalAt s t := by
  obtain ⟨ts⟩ := s
  dsimp only at h hu
  subst h
  obtain ⟨q1, rest1, heq, hm, hn, hd, hq, hh⟩ := estidy_terms_head p.1 p.2 rest
  rw [esvalAt_of_terms_cons heq t, esvalAt_of_terms_cons rfl t]
  refine Qobj.eq_of_fields hm hn ?_ hd hq hh
  rw [castM_valSum hm hn]
  exact estidy_terms_valSum ⟨p :: rest⟩ hu t

theorem superTerms_coeff_sum {N : ℕ} (r : Qobj) (hN : r.m * r.n = N) (w : Fin N → ℂ)
    {v : Matrix (Fin N) (Fin N) ℂ} (hv : v.det ≠ 0) :
    ((superTerms N r hN w v).map (fun p => dataAt r.m r.n p.1)).sum = r.data := by
  subst hN
  have hsolve := mulVec_laSolve hv (fun k => mat2vec r.data (Fin.cast rfl k))
  simp only [superTerms, List.map_map]
  rw [← List.ofFn_eq_map, List.sum_ofFn]
  funext a b
  rw [Matrix.sum_apply]
  have hpoint := congrFun hsolve (vIdx a b)
  simp only [Matrix.mulVec, Matrix.dotProduct, finCast_eq] at hpoint
  simp only [Function.comp_apply, dataAt_mk, vec2mat, finCast_eq, Matrix.mul_diagonal]
  rw [hpoint]
  simp [mat2vec, rowOf_vIdx, colOf_vIdx]

theorem valSum_superTerms (r : Qobj) (w : Fin (r.m * r.n) → ℂ)
    (v : Matrix (Fin (r.m * r.n)) (Fin (r.m * r.n)) ℂ) (t : ℝ) :
    valSum r.m r.n (superTerms (r.m * r.n) r rfl w v) t
      = vec2mat (Matrix.mulVec
          (v * Matrix.diagonal (fun i => Complex.exp (w i * (t : ℂ))))
          (laSolve v (mat2vec r.data))) := by
  simp only [valSum, superTerms, List.map_map]
  rw [← List.ofFn_eq_map, List.sum_ofFn]
  funext a b
  rw [Matrix.sum_apply]
  simp only [Function.comp_apply, dataAt_mk, finCast_eq, vec2mat, Matrix.smul_apply,
    smul_eq_mul, Matrix.mul_diagonal, Matrix.mulVec, Matrix.dotProduct]
  apply Finset.sum_congr rfl
  intro i _
  ring

theorem esvalAt_estidy_superTerms {N : ℕ} (r : Qobj) (hN : r.m * r.n = N)
    (w : Fin N → ℂ) (v : Matrix (Fin N) (Fin N) ℂ) (h0 : 0 < r.m * r.n) (t : ℝ) :
    esvalAt (estidy ⟨superTerms N r hN w v⟩) t
      = { m := r.m, n := r.n,
          data := vec2mat (fun k =>
            Matrix.mulVec (v * Matrix.diagonal (fun i => Complex.exp (w i * (t : ℂ))))
              (laSolve v (fun k2 => mat2vec r.data (Fin.cast hN.symm k2)))
              (Fin.cast hN k)),
          dims := r.dims, qtype := r.qtype, isherm := r.isherm } := by
  subst hN
  have hne : superTerms (r.m * r.n) r rfl w v ≠ [] := by
    intro hcon
    have hlen := length_superTerms (r.m * r.n) r rfl w v
    rw [hcon] at hlen
    simp only [List.length_nil] at hlen
    omega
  obtain ⟨p, rest, hpr⟩ := List.exists_cons_of_ne_nil hne
  have hpmem : p ∈ superTerms (r.m * r.n) r rfl w v := by
    rw [hpr]
    exact List.mem_cons_self p rest
  have hpm := mem_superTerms_meta hpmem
  have hpr' : (⟨superTerms (r.m * r.n) r rfl w v⟩ : ESeries).terms = p :: rest := hpr
  have hu : uniformShape p.1.m p.1.n
      (⟨superTerms (r.m * r.n) r rfl w v⟩ : ESeries).terms := by
    intro q hq
    have hqm := mem_superTerms_meta hq
    exact ⟨hqm.1.trans hpm.1.symm, hqm.2.1.trans hpm.2.1.symm⟩
  rw [esvalAt_estidy hpr' hu t, esvalAt_of_terms_cons hpr' t]
  refine Qobj.eq_of_fields hpm.1 hpm.2.1 ?_ hpm.2.2.1 hpm.2.2.2.1 hpm.2.2.2.2
  rw [castM_valSum hpm.1 hpm.2.1]
  exact valSum_superTerms r w v t

/-! Run lemmas: the value `ode2es` returns on each accepted input class. -/

theorem ode2es_super_run (eig : EigSolver) (L rho0 : Qobj) (hs : issuper L = true)
    (hdim : L.n = L.m ∧ (promoteIfKet rho0).m * (promoteIfKet rho0).n = L.m) :
    ode2es eig L rho0 = Except.ok (estidy ⟨superTerms L.m (promoteIfKet rho0) hdim.2
      (eig L.m (castM rfl hdim.1 L.data)).1 (eig L.m (castM rfl hdim.1 L.data)).2⟩) := by
  simp only [ode2es, hs, if_true, eq_self_iff_true]
  rw [dif_pos hdim]

theorem ode2es_oper_run (eig : EigSolver) (L rho0 : Qobj) (hs : issuper L = false)
    (hop : isoper L = true) (hk : isket rho0 = true)
    (hdim : L.n = L.m ∧ rho0.m * rho0.n = L.m) :
    ode2es eig L rho0 = Except.ok (estidy ⟨operTerms L.m rho0 hdim.2
      (eig L.m (castM rfl hdim.1 L.data)).1 (eig L.m (castM rfl hdim.1 L.data)).2⟩) := by
  simp only [ode2es, hs, hop, hk, if_true, eq_self_iff_true, Bool.false_eq_true, if_false]
  rw [dif_pos hdim]

/-! Claim theorems. -/

/-- C1: for every generator accepted by `ode2es`, the rates of the series
handed to the tidy step follow the mode convention: with a superoperator
generator (density-matrix evolution) the rate of term `i` is the eigenvalue
`w i` itself; with an operator generator and ket initial state (unitary
evolution) it is `-1i * w i`. -/
theorem ode2es_rate_convention (eig : EigSolver) (L rho0 : Qobj) :
    (∀ (hs : issuper L = true)
        (hdim : L.n = L.m ∧ (promoteIfKet rho0).m * (promoteIfKet rho0).n = L.m),
      ode2es eig L rho0 = Except.ok (estidy ⟨superTerms L.m (promoteIfKet rho0) hdim.2
          (eig L.m (castM rfl hdim.1 L.data)).1 (eig L.m (castM rfl hdim.1 L.data)).2⟩) ∧
      (superTerms L.m (promoteIfKet rho0) hdim.2 (eig L.m (castM rfl hdim.1 L.data)).1
          (eig L.m (castM rfl hdim.1 L.data)).2).map Prod.snd
        = (List.finRange ((promoteIfKet rho0).m * (promoteIfKet rho0).n)).map
            (fun i => (eig L.m (castM rfl hdim.1 L.data)).1 (Fin.cast hdim.2 i))) ∧
    (∀ (hs : issuper L = false) (hop : isoper L = true) (hk : isket rho0 = true)
        (hdim : L.n = L.m ∧ rho0.m * rho0.n = L.m),
      ode2es eig L rho0 = Except.ok (estidy ⟨operTerms L.m rho0 hdim.2
          (eig L.m (castM rfl hdim.1 L.data)).1 (eig L.m (castM rfl hdim.1 L.data)).2⟩) ∧
      (operTerms L.m rho0 hdim.2 (eig L.m (castM rfl hdim.1 L.data)).1
          (eig L.m (castM rfl hdim.1 L.data)).2).map Prod.snd
        = (List.finRange (rho0.m * rho0.n)).map
            (fun i => -Complex.I * (eig L.m (castM rfl hdim.1 L.data)).1
              (Fin.cast hdim.2 i))) := by
  constructor
  · intro hs hdim
    exact ⟨ode2es_super_run eig L rho0 hs hdim, superTerms_rates _ _ _ _ _⟩
  · intro hs hop hk hdim
    refine ⟨ode2es_oper_run eig L rho0 hs hop hk hdim, ?_⟩
    rw [operTerms_eq_superTerms, superTerms_rates]

/-- Witness for `ode2es_rate_convention` at concrete one-dimensional inputs
(a superoperator generator with an operator state, and an operator generator
with a ket state). -/
theorem ode2es_rate_convention_witness :
    (ode2es (fun N _ => (fun _ => 0, (1 : Matrix (Fin N) (Fin N) ℂ)))
        ⟨1, 1, 0, ([1], [1]), QType.super, false⟩
        ⟨1, 1, !![1], ([1], [1]), QType.oper, true⟩
      = Except.ok (estidy ⟨superTerms 1
          (⟨1, 1, !![1], ([1], [1]), QType.oper, true⟩ : Qobj) rfl (fun _ => 0) 1⟩) ∧
      (superTerms 1 (⟨1, 1, !![1], ([1], [1]), QType.oper, true⟩ : Qobj) rfl
          (fun _ => 0) 1).map Prod.snd
        = (List.finRange (1 * 1)).map (fun _ => (0 : ℂ))) ∧
    (ode2es (fun N _ => (fun _ => 0, (1 : Matrix (Fin N) (Fin N) ℂ)))
        ⟨1, 1, 0, ([1], [1]), QType.oper, true⟩
        ⟨1, 1, !![1], ([1], [1]), QType.ket, false⟩
      = Except.ok (estidy ⟨operTerms 1
          (⟨1, 1, !![1], ([1], [1]), QType.ket, false⟩ : Qobj) rfl (fun _ => 0) 1⟩) ∧
      (operTerms 1 (⟨1, 1, !![1], ([1], [1]), QType.ket, false⟩ : Qobj) rfl
          (fun _ => 0) 1).map Prod.snd
        = (List.finRange (1 * 1)).map (fun _ => -Complex.I * 0)) := by
  refine ⟨?_, ?_⟩
  · exact (ode2es_rate_convention (fun N _ => (fun _ => 0, 1))
      ⟨1, 1, 0, ([1], [1]), QType.super, false⟩
      ⟨1, 1, !![1], ([1], [1]), QType.oper, true⟩).1 rfl ⟨rfl, rfl⟩
  · exact (ode2es_rate_convention (fun N _ => (fun _ => 0, 1))
      ⟨1, 1, 0, ([1], [1]), QType.oper, true⟩
      ⟨1, 1, !![1], ([1], [1]), QType.ket, false⟩).2 rfl rfl rfl ⟨rfl, rfl⟩

/-- C2: for every diagonalizable generator accepted by `ode2es` (eigenvector
matrix invertible), the coefficient matrices of the built series sum to the
(possibly promoted) initial state, because the coefficients come from solving
`v * v0 = r0` exactly; hence the series evaluated at time zero reproduces the
initial state. -/
theorem ode2es_t0_reconstruction (eig : EigSolver) (L rho0 : Qobj) :
    (∀ (hs : issuper L = true)
        (hdim : L.n = L.m ∧ (promoteIfKet rho0).m * (promoteIfKet rho0).n = L.m),
      (eig L.m (castM rfl hdim.1 L.data)).2.det ≠ 0 →
      ((superTerms L.m (promoteIfKet rho0) hdim.2 (eig L.m (castM rfl hdim.1 L.data)).1
          (eig L.m (castM rfl hdim.1 L.data)).2).map
            (fun p => dataAt (promoteIfKet rho0).m (promoteIfKet rho0).n p.1)).sum
        = (promoteIfKet rho0).data) ∧
    (∀ (hs : issuper L = false) (hop : isoper L = true) (hk : isket rho0 = true)
        (hdim : L.n = L.m ∧ rho0.m * rho0.n = L.m),
      (eig L.m (castM rfl hdim.1 L.data)).2.det ≠ 0 →
      ((operTerms L.m rho0 hdim.2 (eig L.m (castM rfl hdim.1 L.data)).1
          (eig L.m (castM rfl hdim.1 L.data)).2).map
            (fun p => dataAt rho0.m rho0.n p.1)).sum = rho0.data) := by
  constructor
  · intro hs hdim hv
    exact superTerms_coeff_sum (promoteIfKet rho0) hdim.2 _ hv
  · intro hs hop hk hdim hv
    rw [operTerms_eq_superTerms]
    exact superTerms_coeff_sum rho0 hdim.2 _ hv

/-- Witness for `ode2es_t0_reconstruction` at concrete one-dimensional
inputs with the identity eigenvector matrix. -/
theorem ode2es_t0_reconstruction_witness :
    ((superTerms 1 (⟨1, 1, !![1], ([1], [1]), QType.oper, true⟩ : Qobj) rfl
        (fun _ => 0) 1).map (fun p => dataAt 1 1 p.1)).sum = !![1] ∧
    ((operTerms 1 (⟨1, 1, !![2], ([1], [1]), QType.ket, false⟩ : Qobj) rfl
        (fun _ => 0) 1).map (fun p => dataAt 1 1 p.1)).sum = !![2] := by
  constructor
  · exact (ode2es_t0_reconstruction (fun N _ => (fun _ => 0, 1))
      ⟨1, 1, 0, ([1], [1]), QType.super, false⟩
      ⟨1, 1, !![1], ([1], [1]), QType.oper, true⟩).1 rfl ⟨rfl, rfl⟩
      (by simp [Matrix.det_one])
  · exact (ode2es_t0_reconstruction (fun N _ => (fun _ => 0, 1))
      ⟨1, 1, 0, ([1], [1]), QType.oper, true⟩
      ⟨1, 1, !![2], ([1], [1]), QType.ket, false⟩).2 rfl rfl rfl ⟨rfl, rfl⟩
      (by simp [Matrix.det_one])

/-- C3: `ode2es` fails with the state-type-mismatch error whenever the
generator is a recognized operator (not superoperator) and the initial state
is not a ket, and with the invalid-generator error whenever the generator is
neither operator nor superoperator; no series is returned in either case. -/
theorem ode2es_rejects_invalid (eig : EigSolver) (L rho0 : Qobj) :
    (issuper L = false → isoper L = true → isket rho0 = false →
      ode2es eig L rho0 = Except.error QuErr.stateTypeMismatch) ∧
    (issuper L = false → isoper L = false →
      ode2es eig L rho0 = Except.error QuErr.invalidGenerator) := by
  constructor
  · intro h1 h2 h3
    simp [ode2es, h1, h2, h3]
  · intro h1 h2
    simp [ode2es, h1, h2]

/-- Witness for `ode2es_rejects_invalid`: an operator generator with a
density-matrix state, and a bra generator. -/
theorem ode2es_rejects_invalid_witness :
    ode2es (fun N _ => (fun _ => 0, (1 : Matrix (Fin N) (Fin N) ℂ)))
        ⟨1, 1, 0, ([1], [1]), QType.oper, true⟩
        ⟨1, 1, !![1], ([1], [1]), QType.oper, true⟩
      = Except.error QuErr.stateTypeMismatch ∧
    ode2es (fun N _ => (fun _ => 0, (1 : Matrix (Fin N) (Fin N) ℂ)))
        ⟨1, 1, 0, ([1], [1]), QType.bra, false⟩
        ⟨1, 1, !![1], ([1], [1]), QType.ket, false⟩
      = Except.error QuErr.invalidGenerator :=
  ⟨(ode2es_rejects_invalid _ _ _).1 rfl rfl rfl, (ode2es_rejects_invalid _ _ _).2 rfl rfl⟩

/-- C9: on a superoperator generator with a ket initial state, `ode2es` first
promotes the state to the density matrix `rho0 * rho0.dag()` (the outer
product of the ket with its own conjugate transpose) and every subsequent
step uses the promoted state: the run coincides with the run on the promoted
density matrix. -/
theorem ode2es_promotes_ket (eig : EigSolver) (L rho0 : Qobj)
    (hs : issuper L = true) (hk : isket rho0 = true) :
    ode2es eig L rho0 = ode2es eig L
      { m := rho0.m, n := rho0.m, data := rho0.data * rho0.data.conjTranspose,
        dims := (rho0.dims.1, rho0.dims.1), qtype := QType.oper, isherm := true } := by
  show ode2es eig L rho0 = ode2es eig L (promote rho0)
  have h1 : promoteIfKet rho0 = promote rho0 := by rw [promoteIfKet, if_pos hk]
  have h2 : promoteIfKet (promote rho0) = promote rho0 := rfl
  simp only [ode2es, hs, if_true, eq_self_iff_true, h1, h2]

/-- Witness for `ode2es_promotes_ket` at a concrete one-dimensional input. -/
theorem ode2es_promotes_ket_witness :
    ode2es (fun N _ => (fun _ => 0, (1 : Matrix (Fin N) (Fin N) ℂ)))
        ⟨1, 1, 0, ([1], [1]), QType.super, false⟩
        ⟨1, 1, !![1], ([1], [1]), QType.ket, false⟩
      = ode2es (fun N _ => (fun _ => 0, (1 : Matrix (Fin N) (Fin N) ℂ)))
        ⟨1, 1, 0, ([1], [1]), QType.super, false⟩
        { m := 1, n := 1, data := !![1] * Matrix.conjTranspose !![1],
          dims := ([1], [1]), qtype := QType.oper, isherm := true } :=
  ode2es_promotes_ket _ _ _ rfl rfl

/-- C10: on every accepted input the series handed to the final tidy step has
exactly `rlen` terms, where `rlen` is the product of the shape of the
(possibly promoted) initial state, and every coefficient is a `Qobj` with the
dims and shape of that state. -/
theorem ode2es_term_count_and_shape (eig : EigSolver) (L rho0 : Qobj) :
    (∀ (hs : issuper L = true)
        (hdim : L.n = L.m ∧ (promoteIfKet rho0).m * (promoteIfKet rho0).n = L.m),
      ode2es eig L rho0 = Except.ok (estidy ⟨superTerms L.m (promoteIfKet rho0) hdim.2
          (eig L.m (castM rfl hdim.1 L.data)).1 (eig L.m (castM rfl hdim.1 L.data)).2⟩) ∧
      (superTerms L.m (promoteIfKet rho0) hdim.2 (eig L.m (castM rfl hdim.1 L.data)).1
          (eig L.m (castM rfl hdim.1 L.data)).2).length
        = (promoteIfKet rho0).m * (promoteIfKet rho0).n ∧
      ∀ p ∈ superTerms L.m (promoteIfKet rho0) hdim.2
          (eig L.m (castM rfl hdim.1 L.data)).1 (eig L.m (castM rfl hdim.1 L.data)).2,
        p.1.m = (promoteIfKet rho0).m ∧ p.1.n = (promoteIfKet rho0).n ∧
          p.1.dims = (promoteIfKet rho0).dims) ∧
    (∀ (hs : issuper L = false) (hop : isoper L = true) (hk : isket rho0 = true)
        (hdim : L.n = L.m ∧ rho0.m * rho0.n = L.m),
      ode2es eig L rho0 = Except.ok (estidy ⟨operTerms L.m rho0 hdim.2
          (eig L.m (castM rfl hdim.1 L.data)).1 (eig L.m (castM rfl hdim.1 L.data)).2⟩) ∧
      (operTerms L.m rho0 hdim.2 (eig L.m (castM rfl hdim.1 L.data)).1
          (eig L.m (castM rfl hdim.1 L.data)).2).length = rho0.m * rho0.n ∧
      ∀ p ∈ operTerms L.m rho0 hdim.2 (eig L.m (castM rfl hdim.1 L.data)).1
          (eig L.m (castM rfl hdim.1 L.data)).2,
        p.1.m = rho0.m ∧ p.1.n = rho0.n ∧ p.1.dims = rho0.dims) := by
  constructor
  · intro hs hdim
    refine ⟨ode2es_super_run eig L rho0 hs hdim, length_superTerms _ _ _ _ _, ?_⟩
    intro p hp
    have h := mem_superTerms_meta hp
    exact ⟨h.1, h.2.1, h.2.2.1⟩
  · intro hs hop hk hdim
    refine ⟨ode2es_oper_run eig L rho0 hs hop hk hdim, ?_, ?_⟩
    · rw [operTerms_eq_superTerms]
      exact length_superTerms _ _ _ _ _
    · intro p hp
      rw [operTerms_eq_superTerms] at hp
      have h := mem_superTerms_meta hp
      exact ⟨h.1, h.2.1, h.2.2.1⟩

/-- Witness for `ode2es_term_count_and_shape` at concrete one-dimensional
inputs. -/
theorem ode2es_term_count_and_shape_witness :
    (ode2es (fun N _ => (fun _ => 0, (1 : Matrix (Fin N) (Fin N) ℂ)))
        ⟨1, 1, 0, ([2], [2]), QType.super, false⟩
        ⟨1, 1, !![1], ([3], [4]), QType.oper, true⟩
      = Except.ok (estidy ⟨superTerms 1
          (⟨1, 1, !![1], ([3], [4]), QType.oper, true⟩ : Qobj) rfl (fun _ => 0) 1⟩) ∧
      (superTerms 1 (⟨1, 1, !![1], ([3], [4]), QType.oper, true⟩ : Qobj) rfl
          (fun _ => 0) 1).length = 1 * 1 ∧
      ∀ p ∈ superTerms 1 (⟨1, 1, !![1], ([3], [4]), QType.oper, true⟩ : Qobj) rfl
          (fun _ => 0) 1,
        p.1.m = 1 ∧ p.1.n = 1 ∧ p.1.dims = ([3], [4])) ∧
    (ode2es (fun N _ => (fun _ => 0, (1 : Matrix (Fin N) (Fin N) ℂ)))
        ⟨1, 1, 0, ([2], [2]), QType.oper, true⟩
        ⟨1, 1, !![1], ([5], [6]), QType.ket, false⟩
      = Except.ok (estidy ⟨operTerms 1
          (⟨1, 1, !![1], ([5], [6]), QType.ket, false⟩ : Qobj) rfl (fun _ => 0) 1⟩) ∧
      (operTerms 1 (⟨1, 1, !![1], ([5], [6]), QType.ket, false⟩ : Qobj) rfl
          (fun _ => 0) 1).length = 1 * 1 ∧
      ∀ p ∈ operTerms 1 (⟨1, 1, !![1], ([5], [6]), QType.ket, false⟩ : Qobj) rfl
          (fun _ => 0) 1,
        p.1.m = 1 ∧ p.1.n = 1 ∧ p.1.dims = ([5], [6])) := by
  refine ⟨?_, ?_⟩
  · exact (ode2es_term_count_and_shape (fun N _ => (fun _ => 0, 1))
      ⟨1, 1, 0, ([2], [2]), QType.super, false⟩
      ⟨1, 1, !![1], ([3], [4]), QType.oper, true⟩).1 rfl ⟨rfl, rfl⟩
  · exact (ode2es_term_count_and_shape (fun N _ => (fun _ => 0, 1))
      ⟨1, 1, 0, ([2], [2]), QType.oper, true⟩
      ⟨1, 1, !![1], ([5], [6]), QType.ket, false⟩).2 rfl rfl rfl ⟨rfl, rfl⟩

/-- C4: in `essolve` the generator handed to `ode2es` is the Hamiltonian `H`
itself exactly when the collapse-operator list is absent or empty and the
initial state is a ket; in every other case it is the generator built by the
external `liouvillian` collaborator from `H` and the collapse operators. -/
theorem essolve_generator_choice (lv : Qobj → Option (List Qobj) → Qobj)
    (H rho0 : Qobj) (c : Option (List Qobj)) :
    ((c = none ∨ c = some []) → isket rho0 = true →
      essolveGenerator lv H rho0 c = H) ∧
    (((c ≠ none ∧ c ≠ some []) ∨ isket rho0 = false) →
      essolveGenerator lv H rho0 c = lv H c) := by
  constructor
  · rintro (rfl | rfl) hk
    · simp [essolveGenerator, hk]
    · simp [essolveGenerator, hk]
  · rintro (⟨h1, h2⟩ | h3)
    · cases c with
      | none => exact absurd rfl h1
      | some l =>
        cases l with
        | nil => exact absurd rfl h2
        | cons x xs => simp [essolveGenerator]
    · simp [essolveGenerator, h3]

/-- Witness for `essolve_generator_choice`: with no collapse operators and a
ket state the Hamiltonian is used directly; with a collapse operator the
Liouvillian collaborator output is used. -/
theorem essolve_generator_choice_witness :
    essolveGenerator (fun _ _ => ⟨1, 1, 0, ([9], [9]), QType.super, false⟩)
        ⟨1, 1, 0, ([1], [1]), QType.oper, true⟩
        ⟨1, 1, !![1], ([1], [1]), QType.ket, false⟩ none
      = ⟨1, 1, 0, ([1], [1]), QType.oper, true⟩ ∧
    essolveGenerator (fun _ _ => ⟨1, 1, 0, ([9], [9]), QType.super, false⟩)
        ⟨1, 1, 0, ([1], [1]), QType.oper, true⟩
        ⟨1, 1, !![1], ([1], [1]), QType.ket, false⟩
        (some [⟨1, 1, 0, ([1], [1]), QType.oper, true⟩])
      = ⟨1, 1, 0, ([9], [9]), QType.super, false⟩ := by
  constructor
  · exact (essolve_generator_choice (fun _ _ => ⟨1, 1, 0, ([9], [9]), QType.super, false⟩)
      ⟨1, 1, 0, ([1], [1]), QType.oper, true⟩
      ⟨1, 1, !![1], ([1], [1]), QType.ket, false⟩ none).1 (Or.inl rfl) rfl
  · exact (essolve_generator_choice (fun _ _ => ⟨1, 1, 0, ([9], [9]), QType.super, false⟩)
      ⟨1, 1, 0, ([1], [1]), QType.oper, true⟩
      ⟨1, 1, !![1], ([1], [1]), QType.ket, false⟩
      (some [⟨1, 1, 0, ([1], [1]), QType.oper, true⟩])).2
      (Or.inl ⟨by simp, by simp⟩)

/-- C8: with an empty observable list (and inputs otherwise accepted),
`essolve` returns a result rather than an error, carrying the solver
identifier string, the input time grid and an empty expectation set. -/
theorem essolve_empty_observables (eig : EigSolver)
    (lv : Qobj → Option (List Qobj) → Qobj) (H rho0 : Qobj) (tlist : List ℝ)
    (c : Option (List Qobj)) (es : ESeries)
    (hode : ode2es eig (essolveGenerator lv H rho0 c) rho0 = Except.ok es) :
    essolve eig lv H rho0 tlist c []
      = Except.ok { solver := "essolve", times := tlist, expect := [] } := by
  simp [essolve, hode]

/-- Witness for `essolve_empty_observables` at a concrete one-dimensional
input. -/
theorem essolve_empty_observables_witness :
    essolve (fun N _ => (fun _ => 0, (1 : Matrix (Fin N) (Fin N) ℂ)))
        (fun h _ => h) ⟨1, 1, 0, ([1], [1]), QType.oper, true⟩
        ⟨1, 1, !![1], ([1], [1]), QType.ket, false⟩ [0] none []
      = Except.ok { solver := "essolve", times := [0], expect := [] } :=
  essolve_empty_observables _ _ _ _ _ _
    (estidy ⟨operTerms 1 (⟨1, 1, !![1], ([1], [1]), QType.ket, false⟩ : Qobj) rfl
      (fun _ => 0) 1⟩) rfl

/-- C5: the expectation sequence `essolve` stores for an observable is the
real part of the computed complex sequence when the observable's Hermiticity
flag is set and the unmodified complex sequence otherwise; consequently every
Hermitian-flagged observable's stored sequence has zero imaginary part at all
times. -/
theorem essolve_hermitian_projection (eig : EigSolver)
    (lv : Qobj → Option (List Qobj) → Qobj) (H rho0 : Qobj) (tlist : List ℝ)
    (c : Option (List Qobj)) (e_ops : List Qobj) (es : ESeries) (data : Odedata)
    (hode : ode2es eig (essolveGenerator lv H rho0 c) rho0 = Except.ok es)
    (hrun : essolve eig lv H rho0 tlist c e_ops = Except.ok data) :
    data.expect = e_ops.map (fun e =>
        if e.isherm then
          (tlist.map (fun t => expect e (esvalAt es t))).map (fun z => ((z.re : ℝ) : ℂ))
        else tlist.map (fun t => expect e (esvalAt es t))) ∧
    ∀ (j : ℕ) (hj : j < e_ops.length) (hj2 : j < data.expect.length),
      (e_ops.get ⟨j, hj⟩).isherm = true →
      ∀ z ∈ data.expect.get ⟨j, hj2⟩, z.im = 0 := by
  simp only [essolve, hode, Except.ok.injEq] at hrun
  subst hrun
  constructor
  · rfl
  · intro j hj hj2 hherm z hz
    simp only [List.get_eq_getElem, List.getElem_map] at hz
    rw [List.get_eq_getElem] at hherm
    rw [hherm] at hz
    simp only [if_true] at hz
    simp only [List.mem_map] at hz
    obtain ⟨y, -, rfl⟩ := hz
    exact Complex.ofReal_im _

/-- Witness for `essolve_hermitian_projection` on the concrete
one-dimensional fixtures, with one Hermitian-flagged observable. -/
theorem essolve_hermitian_projection_witness :
    dataW.expect = [operW].map (fun e =>
        if e.isherm then
          ([(0 : ℝ)].map (fun t => expect e (esvalAt esW t))).map
            (fun z => ((z.re : ℝ) : ℂ))
        else [(0 : ℝ)].map (fun t => expect e (esvalAt esW t))) ∧
    ∀ (j : ℕ) (hj : j < [operW].length) (hj2 : j < dataW.expect.length),
      ([operW].get ⟨j, hj⟩).isherm = true →
      ∀ z ∈ dataW.expect.get ⟨j, hj2⟩, z.im = 0 :=
  essolve_hermitian_projection eigW (fun h _ => h) hamW ketW [0] none [operW] esW dataW
    rfl rfl

theorem vIdx_val {m n : ℕ} (i : Fin m) (j : Fin n) :
    (vIdx i j).val = j.val * m + i.val := rfl

theorem rowOf_val {m n : ℕ} (k : Fin (m * n)) : (rowOf k).val = k.val % m := rfl

theorem colOf_val {m n : ℕ} (k : Fin (m * n)) : (colOf k).val = k.val / m := rfl

theorem finCast_val {a b : ℕ} (h : a = b) (x : Fin a) : (Fin.cast h x).val = x.val := rfl

theorem laSolve_one {N : ℕ} (b : Fin N → ℂ) :
    laSolve (1 : Matrix (Fin N) (Fin N) ℂ) b = b := by
  rw [laSolve_eq_inv_mulVec, inv_one, Matrix.one_mulVec]

theorem two_level_terms :
    operTerms 2 ketZ rfl ![(1 : ℂ), -1] 1 = seriesZ.terms := by
  simp only [operTerms, laSolve_one, Matrix.one_mul]
  rw [show List.finRange (ketZ.m * ketZ.n)
      = [⟨0, by decide⟩, ⟨1, by decide⟩] from rfl]
  simp only [List.map_cons, List.map_nil, seriesZ]
  refine congrArg₂ List.cons ?_ (congrArg₂ List.cons ?_ rfl)
  · refine Prod.ext ?_ rfl
    refine Qobj.eq_of_fields rfl rfl ?_ rfl rfl rfl
    rw [castM_self]
    funext a b
    fin_cases a <;> fin_cases b <;> rfl
  · refine Prod.ext ?_ rfl
    refine Qobj.eq_of_fields rfl rfl ?_ rfl rfl rfl
    rw [castM_self]
    funext a b
    fin_cases a <;> fin_cases b <;> rfl

theorem two_level_tidy : estidy seriesZ = seriesZ := by
  have hne : ¬((-Complex.I * 1 : ℂ) = -Complex.I * (-1)) := by
    norm_num [Complex.ext_iff]
  show ESeries.mk _ = _
  simp only [seriesZ, estidy, List.foldl, insertES]
  rw [if_neg hne]

theorem two_level_state (t : ℝ) :
    esvalAt seriesZ t
      = ⟨2, 1, Complex.exp (-Complex.I * 1 * (t : ℂ)) • !![1; 0]
          + (Complex.exp (-Complex.I * (-1) * (t : ℂ)) • !![0; 0] + 0),
         ([2], [1]), QType.ket, false⟩ := rfl

theorem two_level_expectation (t : ℝ) : expect obsZ (esvalAt seriesZ t) = 1 := by
  have h1 : expect obsZ (esvalAt seriesZ t)
      = Matrix.dotProduct (star fun i : Fin 2 =>
          (Complex.exp (-Complex.I * 1 * (t : ℂ)) • !![(1 : ℂ); 0]
            + (Complex.exp (-Complex.I * (-1) * (t : ℂ)) • !![0; 0] + 0)
            : Matrix (Fin 2) (Fin 1) ℂ) i 0)
          (Matrix.mulVec !![(1 : ℂ), 0; 0, -1] (fun i =>
            (Complex.exp (-Complex.I * 1 * (t : ℂ)) • !![(1 : ℂ); 0]
              + (Complex.exp (-Complex.I * (-1) * (t : ℂ)) • !![0; 0] + 0)
              : Matrix (Fin 2) (Fin 1) ℂ) i 0)) := rfl
  rw [h1]
  simp only [Matrix.add_apply, Matrix.smul_apply, Matrix.cons_val_zero, Matrix.cons_val_one,
    Matrix.head_cons, Matrix.cons_val_fin_one, Matrix.zero_apply, smul_eq_mul, mul_one,
    mul_zero, add_zero, Matrix.dotProduct, Matrix.mulVec, Fin.sum_univ_two, Pi.star_apply,
    RCLike.star_def, Matrix.cons_val', Matrix.empty_val', Matrix.cons_val_fin_one,
    Matrix.head_fin_const, one_mul, zero_mul, zero_add, map_zero, mul_neg, neg_zero]
  simp only [Matrix.cons_val', Matrix.cons_val_zero, Matrix.cons_val_one, Matrix.head_cons,
    Matrix.empty_val', Matrix.cons_val_fin_one, Matrix.head_fin_const, Matrix.of_apply,
    mul_one, mul_zero, add_zero, zero_add, one_mul, zero_mul, map_zero, neg_neg, neg_zero,
    mul_neg]
  have hz : (starRingEnd ℂ) (-Complex.I * (t : ℂ)) + -Complex.I * (t : ℂ) = 0 := by
    simp only [map_mul, map_neg, Complex.conj_I, Complex.conj_ofReal]
    ring
  rw [← Complex.exp_conj, ← Complex.exp_add, hz, Complex.exp_zero]

/-- C7: the spec's concrete two-level scenario.  With generator `diag(1, -1)`
whose eigendecomposition is the standard basis with eigenvalues `(1, -1)`,
initial ket `(1, 0)`, time grid `[0, pi/2, pi]` and Hermitian observable
`diag(1, -1)`: `ode2es` builds the two-term series with rates `-1i * 1` and
`-1i * (-1)` whose coefficients are the eigenprojectors applied to the
initial ket, and `essolve` returns expectation value `1` (zero imaginary
part) at all three times. -/
theorem ode2es_two_level_scenario (eig : EigSolver)
    (lv : Qobj → Option (List Qobj) → Qobj)
    (heig : eig 2 hamZ.data = (![1, -1], 1)) :
    ode2es eig hamZ ketZ = Except.ok seriesZ ∧
    essolve eig lv hamZ ketZ [0, Real.pi / 2, Real.pi] none [obsZ]
      = Except.ok { solver := "essolve", times := [0, Real.pi / 2, Real.pi],
                    expect := [[1, 1, 1]] } := by
  have hode : ode2es eig hamZ ketZ = Except.ok seriesZ := by
    have hrun : ode2es eig hamZ ketZ
        = Except.ok (estidy ⟨operTerms 2 ketZ rfl (eig 2 hamZ.data).1
            (eig 2 hamZ.data).2⟩) :=
      ode2es_oper_run eig hamZ ketZ rfl rfl rfl ⟨rfl, rfl⟩
    rw [hrun, heig]
    show Except.ok (estidy ⟨operTerms 2 ketZ rfl ![(1 : ℂ), -1] 1⟩) = _
    rw [two_level_terms]
    show Except.ok (estidy seriesZ) = _
    rw [two_level_tidy]
  refine ⟨hode, ?_⟩
  have hgen : essolveGenerator lv hamZ ketZ none = hamZ := rfl
  simp only [essolve, hgen, hode]
  simp only [List.map_cons, List.map_nil, two_level_expectation]
  simp only [obsZ, if_true, eq_self_iff_true, Complex.one_re, Complex.ofReal_one]

/-- Witness for `ode2es_two_level_scenario`: a concrete eigensolver reporting
the standard-basis eigendecomposition for the two-level generator. -/
theorem ode2es_two_level_scenario_witness :
    ode2es (fun N _ => (fun i => if (i : ℕ) = 0 then 1 else -1,
        (1 : Matrix (Fin N) (Fin N) ℂ))) hamZ ketZ = Except.ok seriesZ ∧
    essolve (fun N _ => (fun i => if (i : ℕ) = 0 then 1 else -1,
        (1 : Matrix (Fin N) (Fin N) ℂ)))
        (fun h _ => h) hamZ ketZ [0, Real.pi / 2, Real.pi] none [obsZ]
      = Except.ok { solver := "essolve", times := [0, Real.pi / 2, Real.pi],
                    expect := [[1, 1, 1]] } :=
  ode2es_two_level_scenario _ _ (by
    refine Prod.ext ?_ rfl
    funext i
    fin_cases i <;> simp)

/-! Superoperator-matrix algebra used for the consistency of the two
branches. -/

theorem sum_vecEquiv {d : ℕ} (f : Fin (d * d) → ℂ) :
    ∑ k, f k = ∑ p : Fin d × Fin d, f (vIdx p.1 p.2) :=
  (Equiv.sum_comp (vecEquiv d d) f).symm

theorem spreM_smul {d : ℕ} (c : ℂ) (A : Matrix (Fin d) (Fin d) ℂ) :
    spreM (c • A) = c • spreM A := by
  funext k l
  simp [spreM, Matrix.smul_apply, smul_eq_mul, mul_assoc]

theorem spreM_add {d : ℕ} (A B : Matrix (Fin d) (Fin d) ℂ) :
    spreM (A + B) = spreM A + spreM B := by
  funext k l
  by_cases h : colOf l = colOf k <;> simp [spreM, Matrix.add_apply, h]

theorem spreM_zero {d : ℕ} : spreM (0 : Matrix (Fin d) (Fin d) ℂ) = 0 := by
  funext k l
  simp [spreM]

theorem spostM_zero {d : ℕ} : spostM (0 : Matrix (Fin d) (Fin d) ℂ) = 0 := by
  funext k l
  simp [spostM]

theorem spreM_one {d : ℕ} : spreM (1 : Matrix (Fin d) (Fin d) ℂ) = 1 := by
  funext k l
  simp only [spreM, Matrix.one_apply]
  by_cases hr : rowOf l = rowOf k
  · by_cases hc : colOf l = colOf k
    · have hkl : k = l := (fin_eq_of_row_col hr hc).symm
      simp [hr, hc, hkl]
    · have hkl : ¬(k = l) := fun h => hc (by rw [h])
      simp [hc, hkl]
  · have hkl : ¬(k = l) := fun h => hr (by rw [h])
    have hr2 : ¬(rowOf k = rowOf l) := fun h => hr h.symm
    simp [hr2, hkl]

theorem spreM_mul {d : ℕ} (A B : Matrix (Fin d) (Fin d) ℂ) :
    spreM (A * B) = spreM A * spreM B := by
  funext k l
  rw [Matrix.mul_apply, sum_vecEquiv (fun j => spreM A k j * spreM B j l),
    Fintype.sum_prod_type]
  simp only [spreM, rowOf_vIdx, colOf_vIdx, Matrix.mul_apply]
  rw [Finset.sum_mul]
  refine Finset.sum_congr rfl (fun a _ => ?_)
  rw [Finset.sum_eq_single (colOf k)]
  · by_cases hcc : colOf l = colOf k <;> simp [hcc] <;> ring
  · intro c _ hc
    simp [hc]
  · intro h
    exact absurd (Finset.mem_univ _) h

theorem spreM_mul_spostM {d : ℕ} (A B : Matrix (Fin d) (Fin d) ℂ)
    (k l : Fin (d * d)) :
    (spreM A * spostM B) k l = A (rowOf k) (rowOf l) * B (colOf l) (colOf k) := by
  rw [Matrix.mul_apply, sum_vecEquiv (fun j => spreM A k j * spostM B j l),
    Fintype.sum_prod_type]
  simp only [spreM, spostM, rowOf_vIdx, colOf_vIdx]
  rw [Finset.sum_eq_single (rowOf l)]
  · rw [Finset.sum_eq_single (colOf k)]
    · simp
    · intro c _ hc
      simp [hc]
    · intro h
      exact absurd (Finset.mem_univ _) h
  · intro a _ ha
    have h2 : ¬(rowOf l = a) := fun h => ha h.symm
    simp [h2]
  · intro h
    exact absurd (Finset.mem_univ _) h

theorem spostM_mul_spreM {d : ℕ} (A B : Matrix (Fin d) (Fin d) ℂ)
    (k l : Fin (d * d)) :
    (spostM B * spreM A) k l = A (rowOf k) (rowOf l) * B (colOf l) (colOf k) := by
  rw [Matrix.mul_apply, sum_vecEquiv (fun j => spostM B k j * spreM A j l),
    Fintype.sum_prod_type]
  simp only [spreM, spostM, rowOf_vIdx, colOf_vIdx]
  rw [Finset.sum_eq_single (rowOf k)]
  · rw [Finset.sum_eq_single (colOf l)]
    · simp [mul_comm]
    · intro c _ hc
      have h2 : ¬(colOf l = c) := fun h => hc h.symm
      simp [h2]
    · intro h
      exact absurd (Finset.mem_univ _) h
  · intro a _ ha
    simp [ha]
  · intro h
    exact absurd (Finset.mem_univ _) h

theorem spreM_commute_spostM {d : ℕ} (A B : Matrix (Fin d) (Fin d) ℂ) :
    Commute (spreM A) (spostM B) := by
  show spreM A * spostM B = spostM B * spreM A
  funext k l
  rw [spreM_mul_spostM, spostM_mul_spreM]

theorem spreM_mulVec {d : ℕ} (A X : Matrix (Fin d) (Fin d) ℂ) :
    Matrix.mulVec (spreM A) (mat2vec X) = mat2vec (A * X) := by
  funext k
  simp only [Matrix.mulVec, Matrix.dotProduct]
  rw [sum_vecEquiv (fun j => spreM A k j * mat2vec X j), Fintype.sum_prod_type]
  simp only [spreM, mat2vec, rowOf_vIdx, colOf_vIdx]
  rw [Matrix.mul_apply]
  refine Finset.sum_congr rfl (fun a _ => ?_)
  rw [Finset.sum_eq_single (colOf k)]
  · simp
  · intro c _ hc
    simp [hc]
  · intro h
    exact absurd (Finset.mem_univ _) h

theorem spostM_mulVec {d : ℕ} (B X : Matrix (Fin d) (Fin d) ℂ) :
    Matrix.mulVec (spostM B) (mat2vec X) = mat2vec (X * B) := by
  funext k
  simp only [Matrix.mulVec, Matrix.dotProduct]
  rw [sum_vecEquiv (fun j => spostM B k j * mat2vec X j), Fintype.sum_prod_type]
  simp only [spostM, mat2vec, rowOf_vIdx, colOf_vIdx]
  rw [Matrix.mul_apply]
  rw [Finset.sum_eq_single (rowOf k)]
  · refine Finset.sum_congr rfl (fun c _ => ?_)
    simp [mul_comm]
  · intro a _ ha
    simp [ha]
  · intro h
    exact absurd (Finset.mem_univ _) h

theorem swapIdx_apply {d : ℕ} (k : Fin (d * d)) :
    swapIdx d k = vIdx (colOf k) (rowOf k) := rfl

theorem spostM_eq_submatrix {d : ℕ} (B : Matrix (Fin d) (Fin d) ℂ) :
    spostM B = Matrix.submatrix (spreM Bᵀ) (swapIdx d) (swapIdx d) := by
  funext k l
  simp [spostM, spreM, Matrix.submatrix_apply, swapIdx_apply, rowOf_vIdx, colOf_vIdx,
    Matrix.transpose_apply, mul_comm]

theorem exp_submatrix_equiv {N : ℕ} (σ : Fin N ≃ Fin N)
    (M : Matrix (Fin N) (Fin N) ℂ) :
    NormedSpace.exp ℂ (Matrix.submatrix M σ σ)
      = Matrix.submatrix (NormedSpace.exp ℂ M) σ σ := by
  letI : SeminormedRing (Matrix (Fin N) (Fin N) ℂ) := Matrix.linftyOpSemiNormedRing
  letI : NormedRing (Matrix (Fin N) (Fin N) ℂ) := Matrix.linftyOpNormedRing
  letI : NormedAlgebra ℂ (Matrix (Fin N) (Fin N) ℂ) := Matrix.linftyOpNormedAlgebra
  have h1 : ∀ X : Matrix (Fin N) (Fin N) ℂ,
      Matrix.submatrix X σ σ = Matrix.reindexAlgEquiv ℂ ℂ σ.symm X := by
    intro X
    rw [Matrix.reindexAlgEquiv_apply, Matrix.reindex_apply, Equiv.symm_symm]
  have hcont : Continuous (Matrix.reindexAlgEquiv ℂ ℂ σ.symm :
      Matrix (Fin N) (Fin N) ℂ → Matrix (Fin N) (Fin N) ℂ) :=
    LinearMap.continuous_of_finiteDimensional
      ((Matrix.reindexAlgEquiv ℂ ℂ σ.symm).toAlgHom.toLinearMap)
  rw [h1 M, h1 (NormedSpace.exp ℂ M)]
  exact (NormedSpace.map_exp ℂ (Matrix.reindexAlgEquiv ℂ ℂ σ.symm) hcont M).symm

theorem exp_spreM {d : ℕ} (C : Matrix (Fin d) (Fin d) ℂ) :
    NormedSpace.exp ℂ (spreM C) = spreM (NormedSpace.exp ℂ C) := by
  letI : SeminormedRing (Matrix (Fin d) (Fin d) ℂ) := Matrix.linftyOpSemiNormedRing
  letI : NormedRing (Matrix (Fin d) (Fin d) ℂ) := Matrix.linftyOpNormedRing
  letI : NormedAlgebra ℂ (Matrix (Fin d) (Fin d) ℂ) := Matrix.linftyOpNormedAlgebra
  letI : SeminormedRing (Matrix (Fin (d * d)) (Fin (d * d)) ℂ) :=
    Matrix.linftyOpSemiNormedRing
  letI : NormedRing (Matrix (Fin (d * d)) (Fin (d * d)) ℂ) := Matrix.linftyOpNormedRing
  letI : NormedAlgebra ℂ (Matrix (Fin (d * d)) (Fin (d * d)) ℂ) :=
    Matrix.linftyOpNormedAlgebra
  let F : Matrix (Fin d) (Fin d) ℂ →ₐ[ℂ] Matrix (Fin (d * d)) (Fin (d * d)) ℂ :=
    { toFun := spreM
      map_one' := spreM_one
      map_mul' := spreM_mul
      map_zero' := spreM_zero
      map_add' := spreM_add
      commutes' := fun r => by
        rw [Algebra.algebraMap_eq_smul_one, Algebra.algebraMap_eq_smul_one]
        show spreM (r • 1) = r • 1
        rw [spreM_smul, spreM_one] }
  have hcont : Continuous F :=
    LinearMap.continuous_of_finiteDimensional F.toLinearMap
  exact (NormedSpace.map_exp ℂ F hcont C).symm

theorem exp_spostM {d : ℕ} (C : Matrix (Fin d) (Fin d) ℂ) :
    NormedSpace.exp ℂ (spostM C) = spostM (NormedSpace.exp ℂ C) := by
  rw [spostM_eq_submatrix, exp_submatrix_equiv, exp_spreM, Matrix.exp_transpose,
    ← spostM_eq_submatrix]

set_option maxHeartbeats 1000000 in
theorem eig_evolution_eq_exp {N : ℕ} {L v : Matrix (Fin N) (Fin N) ℂ} {w : Fin N → ℂ}
    (hLv : L * v = v * Matrix.diagonal w) (hv : v.det ≠ 0) (t : ℝ) (x0 : Fin N → ℂ) :
    Matrix.mulVec (v * Matrix.diagonal (fun i => Complex.exp (w i * (t : ℂ))))
      (laSolve v x0)
      = Matrix.mulVec (NormedSpace.exp ℂ ((t : ℂ) • L)) x0 := by
  have hud : IsUnit v.det := isUnit_iff_ne_zero.mpr hv
  have hu : IsUnit v := (Matrix.isUnit_iff_isUnit_det v).mpr hud
  have hL : v * Matrix.diagonal w * v⁻¹ = L := by
    rw [← hLv, Matrix.mul_assoc, Matrix.mul_nonsing_inv v hud, Matrix.mul_one]
  have hw : (fun i => (t : ℂ) * w i) = (t : ℂ) • w := by
    funext i
    exact (smul_eq_mul ℂ).symm
  have hsm : (t : ℂ) • L = v * Matrix.diagonal (fun i => (t : ℂ) * w i) * v⁻¹ := by
    rw [hw, ← hL, ← Matrix.smul_mul, ← Matrix.mul_smul, ← Matrix.diagonal_smul]
  have hdg : NormedSpace.exp ℂ (fun i : Fin N => (t : ℂ) * w i)
      = fun i : Fin N => Complex.exp ((t : ℂ) * w i) := by
    funext i
    rw [Pi.coe_exp, ← Complex.exp_eq_exp_ℂ]
  have hcomm : (fun i => Complex.exp (w i * (t : ℂ)))
      = fun i => Complex.exp ((t : ℂ) * w i) := by
    funext i
    rw [mul_comm]
  rw [hcomm, hsm, Matrix.exp_conj ℂ v _ hu, Matrix.exp_diagonal, hdg,
    laSolve_eq_inv_mulVec, Matrix.mulVec_mulVec]

theorem exp_liouvMat_mulVec {d : ℕ} (H : Matrix (Fin d) (Fin d) ℂ) (t : ℂ)
    (X : Matrix (Fin d) (Fin d) ℂ) :
    Matrix.mulVec (NormedSpace.exp ℂ (t • liouvMat H)) (mat2vec X)
      = mat2vec (NormedSpace.exp ℂ ((-(Complex.I * t)) • H) * X
          * NormedSpace.exp ℂ ((Complex.I * t) • H)) := by
  have hdecomp : t • liouvMat H
      = spreM ((-(Complex.I * t)) • H) + spostM ((Complex.I * t) • H) := by
    funext k l
    simp only [liouvMat, Matrix.smul_apply, Matrix.sub_apply, Matrix.add_apply, spreM,
      spostM, smul_eq_mul]
    ring
  rw [hdecomp,
    Matrix.exp_add_of_commute ℂ _ _ (spreM_commute_spostM _ _),
    exp_spreM, exp_spostM, ← Matrix.mulVec_mulVec, spostM_mulVec, spreM_mulVec,
    Matrix.mul_assoc]

theorem unitary_state_data {d : ℕ} (hd : 0 < d) (Hd : Matrix (Fin d) (Fin d) ℂ)
    (ψ : Matrix (Fin d) (Fin 1) ℂ) {w : Fin d → ℂ} {v : Matrix (Fin d) (Fin d) ℂ}
    (hv : Hd * v = v * Matrix.diagonal w) (hdet : v.det ≠ 0) (t : ℝ) :
    esvalAt (estidy ⟨operTerms d ⟨d, 1, ψ, ([d], [1]), QType.ket, false⟩
        (Nat.mul_one d) w v⟩) t
      =
      { m := d, n := 1,
        data := fun i _ => Matrix.mulVec
          (NormedSpace.exp ℂ ((-(Complex.I * (t : ℂ))) • Hd)) (fun k => ψ k 0) i,
        dims := ([d], [1]), qtype := QType.ket, isherm := false } := by
  rw [operTerms_eq_superTerms]
  refine (esvalAt_estidy_superTerms ⟨d, 1, ψ, ([d], [1]), QType.ket, false⟩
    (Nat.mul_one d) (fun k => -Complex.I * w k) v (Nat.mul_pos hd Nat.one_pos) t).trans ?_
  refine Qobj.eq_of_fields rfl rfl ?_ rfl rfl rfl
  rw [castM_self]
  have hw' : (fun i => -Complex.I * w i) = (-Complex.I) • w := by
    funext i
    exact (smul_eq_mul ℂ).symm
  have hv' : ((-Complex.I) • Hd) * v
      = v * Matrix.diagonal (fun i => -Complex.I * w i) := by
    rw [hw', Matrix.smul_mul, hv, Matrix.diagonal_smul, Matrix.mul_smul]
  have hψcol : (fun k2 : Fin d => mat2vec ψ (Fin.cast (Nat.mul_one d).symm k2))
      = fun k => ψ k 0 := by
    funext k2
    show ψ (rowOf (Fin.cast (Nat.mul_one d).symm k2))
        (colOf (Fin.cast (Nat.mul_one d).symm k2)) = ψ k2 0
    congr 1
    · exact Fin.ext (Nat.mod_eq_of_lt k2.isLt)
    · exact Fin.ext (Nat.div_eq_of_lt k2.isLt)
  have hmain := @eig_evolution_eq_exp d ((-Complex.I) • Hd) v
    (fun i => -Complex.I * w i) hv' hdet t (fun k => ψ k 0)
  have hsc : (t : ℂ) • ((-Complex.I) • Hd) = (-(Complex.I * (t : ℂ))) • Hd := by
    rw [smul_smul]
    congr 1
    ring
  funext i j
  show Matrix.mulVec
      (v * Matrix.diagonal (fun i => Complex.exp (-Complex.I * w i * (t : ℂ))))
      (laSolve v (fun k2 => mat2vec ψ (Fin.cast (Nat.mul_one d).symm k2)))
      (Fin.cast (Nat.mul_one d) (vIdx i j))
    = Matrix.mulVec (NormedSpace.exp ℂ ((-(Complex.I * (t : ℂ))) • Hd))
        (fun k => ψ k 0) i
  have hX : Fin.cast (Nat.mul_one d) (vIdx i j) = i := by
    apply Fin.ext
    have hj : (j : ℕ) = 0 := Nat.lt_one_iff.mp j.isLt
    show (j : ℕ) * d + (i : ℕ) = (i : ℕ)
    rw [hj, Nat.zero_mul, Nat.zero_add]
  rw [hψcol]
  refine (congrFun hmain (Fin.cast (Nat.mul_one d) (vIdx i j))).trans ?_
  rw [hX, hsc]

theorem density_state_data {d : ℕ} (hd : 0 < d) (Hd : Matrix (Fin d) (Fin d) ℂ)
    (ψ : Matrix (Fin d) (Fin 1) ℂ) {w : Fin (d * d) → ℂ}
    {v : Matrix (Fin (d * d)) (Fin (d * d)) ℂ}
    (hv : liouvMat Hd * v = v * Matrix.diagonal w) (hdet : v.det ≠ 0) (t : ℝ) :
    esvalAt (estidy ⟨superTerms (d * d)
        ⟨d, d, ψ * ψ.conjTranspose, ([d], [d]), QType.oper, true⟩ rfl w v⟩) t
      =
      { m := d, n := d,
        data := NormedSpace.exp ℂ ((-(Complex.I * (t : ℂ))) • Hd)
          * (ψ * ψ.conjTranspose)
          * NormedSpace.exp ℂ ((Complex.I * (t : ℂ)) • Hd),
        dims := ([d], [d]), qtype := QType.oper, isherm := true } := by
  refine (esvalAt_estidy_superTerms
    ⟨d, d, ψ * ψ.conjTranspose, ([d], [d]), QType.oper, true⟩ rfl w v
    (Nat.mul_pos hd hd) t).trans ?_
  refine Qobj.eq_of_fields rfl rfl ?_ rfl rfl rfl
  rw [castM_self]
  show vec2mat (Matrix.mulVec
      (v * Matrix.diagonal (fun i => Complex.exp (w i * (t : ℂ))))
      (laSolve v (mat2vec (ψ * ψ.conjTranspose))))
    = _
  rw [eig_evolution_eq_exp hv hdet t (mat2vec (ψ * ψ.conjTranspose)),
    exp_liouvMat_mulVec Hd (t : ℂ) (ψ * ψ.conjTranspose), vec2mat_mat2vec]

theorem exp_conjTranspose_of_herm {d : ℕ} {Hd : Matrix (Fin d) (Fin d) ℂ}
    (hH : Hd.conjTranspose = Hd) (t : ℝ) :
    (NormedSpace.exp ℂ ((-(Complex.I * (t : ℂ))) • Hd)).conjTranspose
      = NormedSpace.exp ℂ ((Complex.I * (t : ℂ)) • Hd) := by
  rw [← Matrix.exp_conjTranspose]
  congr 1
  rw [Matrix.conjTranspose_smul, hH]
  congr 1
  simp

theorem trace_outer_eq_dot {d : ℕ} (A : Matrix (Fin d) (Fin d) ℂ)
    (U : Matrix (Fin d) (Fin 1) ℂ) :
    Matrix.trace (A * (U * U.conjTranspose))
      = Matrix.dotProduct (star (fun i => U i 0))
          (Matrix.mulVec A (fun i => U i 0)) := by
  simp only [Matrix.trace, Matrix.diag, Matrix.mul_apply, Matrix.conjTranspose_apply,
    Matrix.dotProduct, Matrix.mulVec, Pi.star_apply, Fin.sum_univ_one]
  apply Finset.sum_congr rfl
  intro i _
  rw [Finset.mul_sum]
  apply Finset.sum_congr rfl
  intro j _
  ring

theorem expect_ket_mk {m : ℕ} (A : Matrix (Fin m) (Fin m) ℂ)
    (S : Matrix (Fin m) (Fin 1) ℂ) (dm dm2 : List ℕ × List ℕ) (ih ih2 : Bool) :
    expect ⟨m, m, A, dm, QType.oper, ih⟩ ⟨m, 1, S, dm2, QType.ket, ih2⟩
      = Matrix.dotProduct (star (fun i => S i 0))
          (Matrix.mulVec A (fun i => S i 0)) := by
  unfold expect
  rw [dif_pos (⟨rfl, rfl, rfl, rfl⟩ : _ ∧ _ ∧ _ ∧ _)]
  rfl

theorem expect_dm_mk {m : ℕ} (A : Matrix (Fin m) (Fin m) ℂ)
    (S : Matrix (Fin m) (Fin m) ℂ) (dm dm2 : List ℕ × List ℕ) (ih ih2 : Bool) :
    expect ⟨m, m, A, dm, QType.oper, ih⟩ ⟨m, m, S, dm2, QType.oper, ih2⟩
      = Matrix.trace (A * S) := by
  unfold expect
  rw [dif_neg (fun hc => QType.noConfusion hc.1),
    dif_pos (⟨rfl, rfl, rfl, rfl⟩ : _ ∧ _ ∧ _ ∧ _)]
  rw [castM_self, castM_self]

/-- C6: for a Hermitian Hamiltonian, an empty collapse-operator set and a ket
initial state, the unitary path of `ode2es` applied to `(H, psi)` and the
density-matrix path applied to `(liouvillian of H, promoted state)` represent
the same physical evolution: whenever the external eigensolver returns a
genuine diagonalization at both call sites, the expectation value of any
observable computed from the two resulting series agrees at every time. -/
theorem unitary_density_consistency (d : ℕ) (eig : EigSolver)
    (Hd A : Matrix (Fin d) (Fin d) ℂ) (ψ : Matrix (Fin d) (Fin 1) ℂ)
    (hd : 0 < d) (hH : Hd.conjTranspose = Hd)
    (hv1 : Hd * (eig d Hd).2 = (eig d Hd).2 * Matrix.diagonal (eig d Hd).1)
    (hdet1 : (eig d Hd).2.det ≠ 0)
    (hv2 : liouvMat Hd * (eig (d * d) (liouvMat Hd)).2
        = (eig (d * d) (liouvMat Hd)).2 * Matrix.diagonal (eig (d * d) (liouvMat Hd)).1)
    (hdet2 : (eig (d * d) (liouvMat Hd)).2.det ≠ 0)
    (es1 es2 : ESeries)
    (hrun1 : ode2es eig ⟨d, d, Hd, ([d], [d]), QType.oper, true⟩
        ⟨d, 1, ψ, ([d], [1]), QType.ket, false⟩ = Except.ok es1)
    (hrun2 : ode2es eig
        ⟨d * d, d * d, liouvMat Hd, ([d, d], [d, d]), QType.super, false⟩
        ⟨d, 1, ψ, ([d], [1]), QType.ket, false⟩ = Except.ok es2)
    (t : ℝ) :
    expect ⟨d, d, A, ([d], [d]), QType.oper, true⟩ (esvalAt es1 t)
      = expect ⟨d, d, A, ([d], [d]), QType.oper, true⟩ (esvalAt es2 t) := by
  have hes1 : es1 = estidy ⟨operTerms d ⟨d, 1, ψ, ([d], [1]), QType.ket, false⟩
      (Nat.mul_one d) (eig d Hd).1 (eig d Hd).2⟩ :=
    Except.ok.inj (hrun1.symm.trans (ode2es_oper_run eig
      ⟨d, d, Hd, ([d], [d]), QType.oper, true⟩
      ⟨d, 1, ψ, ([d], [1]), QType.ket, false⟩ rfl (by simp [isoper]) rfl
      ⟨rfl, Nat.mul_one d⟩))
  have hes2 : es2 = estidy ⟨superTerms (d * d)
      ⟨d, d, ψ * ψ.conjTranspose, ([d], [d]), QType.oper, true⟩ rfl
      (eig (d * d) (liouvMat Hd)).1 (eig (d * d) (liouvMat Hd)).2⟩ :=
    Except.ok.inj (hrun2.symm.trans (ode2es_super_run eig
      ⟨d * d, d * d, liouvMat Hd, ([d, d], [d, d]), QType.super, false⟩
      ⟨d, 1, ψ, ([d], [1]), QType.ket, false⟩ (by simp [issuper]) ⟨rfl, rfl⟩))
  rw [hes1, hes2, unitary_state_data hd Hd ψ hv1 hdet1 t,
    density_state_data hd Hd ψ hv2 hdet2 t, expect_ket_mk, expect_dm_mk,
    ← exp_conjTranspose_of_herm hH t]
  have houter : NormedSpace.exp ℂ ((-(Complex.I * (t : ℂ))) • Hd)
        * (ψ * ψ.conjTranspose)
        * (NormedSpace.exp ℂ ((-(Complex.I * (t : ℂ))) • Hd)).conjTranspose
      = (NormedSpace.exp ℂ ((-(Complex.I * (t : ℂ))) • Hd) * ψ)
        * (NormedSpace.exp ℂ ((-(Complex.I * (t : ℂ))) • Hd) * ψ).conjTranspose := by
    rw [Matrix.conjTranspose_mul]
    simp only [Matrix.mul_assoc]
  rw [houter,
    trace_outer_eq_dot A (NormedSpace.exp ℂ ((-(Complex.I * (t : ℂ))) • Hd) * ψ)]
  have hcol : (fun i => (NormedSpace.exp ℂ ((-(Complex.I * (t : ℂ))) • Hd) * ψ) i 0)
      = fun i => Matrix.mulVec (NormedSpace.exp ℂ ((-(Complex.I * (t : ℂ))) • Hd))
          (fun k => ψ k 0) i := by
    funext i
    simp [Matrix.mul_apply, Matrix.mulVec, Matrix.dotProduct]
  rw [hcol]

theorem unitary_density_consistency_witness :
    expect ⟨1, 1, !![1], ([1], [1]), QType.oper, true⟩
        (esvalAt (estidy ⟨operTerms 1 ⟨1, 1, !![1], ([1], [1]), QType.ket, false⟩
          (Nat.mul_one 1) (fun _ => 0) 1⟩) 0)
      = expect ⟨1, 1, !![1], ([1], [1]), QType.oper, true⟩
          (esvalAt (estidy ⟨superTerms (1 * 1)
            ⟨1, 1, !![1] * (!![1] : Matrix (Fin 1) (Fin 1) ℂ).conjTranspose,
              ([1], [1]), QType.oper, true⟩ rfl (fun _ => 0) 1⟩) 0) :=
  unitary_density_consistency 1 eigW 0 !![1] !![1] (by decide) (by simp)
    (by simp [eigW]) (by simp [eigW])
    (by simp [eigW, liouvMat, spreM_zero, spostM_zero]) (by simp [eigW])
    (estidy ⟨operTerms 1 ⟨1, 1, !![1], ([1], [1]), QType.ket, false⟩
      (Nat.mul_one 1) (fun _ => 0) 1⟩)
    (estidy ⟨superTerms (1 * 1)
      ⟨1, 1, !![1] * (!![1] : Matrix (Fin 1) (Fin 1) ℂ).conjTranspose,
        ([1], [1]), QType.oper, true⟩ rfl (fun _ => 0) 1⟩)
    rfl rfl 0

end
